import Mathlib

/-!
Verification of the Word-Reference-Maker citation engine.

The definitions below are a shallow embedding of the TypeScript sources:

* `src/src/taskpane/taskpane.ts` — scanner, renumbering pipeline, merge helpers;
* `src/src/lib/storage_doc.ts` — per-document order store;
* the `cite.ts` module (style formatters, bibliography builder, bracket
  grouping helpers).

JavaScript string primitives (`split`, `trim`, `toLowerCase`, `a || b`,
template literals, `parseInt`, decimal rendering) are embedded as
structurally recursive functions over `List Char` / `String` so that all
definitions are executable inside the kernel.
-/

/-! ## Small JavaScript-semantics helpers -/

/-- JS `a || b` for strings: the empty string is falsy, so `a || b` yields
`b` exactly when `a` is empty. -/
def jsOr (a b : String) : String := if a = "" then b else a

/-- The `seen`-set filter idiom used throughout the sources
(`if (!seen.has(id)) { seen.add(id); out.push(id) }`): keep the first
occurrence of each element, drop later repeats. -/
def firstUniqAux {α : Type} [DecidableEq α] (seen : List α) : List α → List α
  | [] => []
  | x :: xs => if x ∈ seen then firstUniqAux seen xs else x :: firstUniqAux (x :: seen) xs

/-- `uniqueInOrder` from `taskpane.ts`: first-appearance ordering (stable unique). -/
def uniqueInOrder (ids : List String) : List String := firstUniqAux [] ids

/-- Modelled from the spec (§4.4): "iterate the raw sequence, keep an
identifier the first time it is seen, drop subsequent repeats, preserving
relative order of first occurrences."  Reference definition used to compare
`uniqueInOrder` against the specification's words. -/
def firstOccSpec {α : Type} [DecidableEq α] : List α → List α
  | [] => []
  | x :: xs => x :: firstOccSpec (xs.filter (fun y => decide (y ≠ x)))
termination_by l => l.length
decreasing_by simpa using Nat.lt_succ_of_le (List.length_filter_le _ xs)

theorem firstUniqAux_eq_spec {α : Type} [DecidableEq α] (l : List α) :
    ∀ seen : List α, firstUniqAux seen l = firstOccSpec (l.filter (fun y => decide (y ∉ seen))) := by
  induction l with
  | nil => intro seen; simp [firstUniqAux, firstOccSpec]
  | cons x xs ih =>
    intro seen
    by_cases hx : x ∈ seen
    · simp only [firstUniqAux, if_pos hx, List.filter_cons]
      have : (decide (x ∉ seen)) = false := by simp [hx]
      rw [this]
      simp only [Bool.false_eq_true, if_false]
      exact ih seen
    · simp only [firstUniqAux, if_neg hx, List.filter_cons]
      have : (decide (x ∉ seen)) = true := by simp [hx]
      rw [this]
      simp only [if_pos]
      rw [firstOccSpec]
      congr 1
      rw [ih (x :: seen), List.filter_filter]
      congr 1
      refine List.filter_congr ?_
      intro y _
      by_cases hyx : y = x <;> by_cases hys : y ∈ seen <;>
        simp [hyx, hys, List.mem_cons]

theorem mem_firstUniqAux {α : Type} [DecidableEq α] (l : List α) :
    ∀ seen x, x ∈ firstUniqAux seen l ↔ x ∈ l ∧ x ∉ seen := by
  induction l with
  | nil => intro seen x; simp [firstUniqAux]
  | cons a as ih =>
    intro seen x
    by_cases ha : a ∈ seen
    · rw [firstUniqAux, if_pos ha, ih]
      constructor
      · rintro ⟨h1, h2⟩; exact ⟨List.mem_cons_of_mem _ h1, h2⟩
      · rintro ⟨h1, h2⟩
        rcases List.mem_cons.mp h1 with rfl | h1
        · exact absurd ha h2
        · exact ⟨h1, h2⟩
    · rw [firstUniqAux, if_neg ha]
      constructor
      · intro h
        rcases List.mem_cons.mp h with rfl | h
        · exact ⟨List.mem_cons_self _ _, ha⟩
        · rcases (ih _ x).mp h with ⟨h1, h2⟩
          refine ⟨List.mem_cons_of_mem _ h1, fun hs => h2 (List.mem_cons_of_mem _ hs)⟩
      · rintro ⟨h1, h2⟩
        rcases List.mem_cons.mp h1 with rfl | h1
        · exact List.mem_cons_self _ _
        · by_cases hxa : x = a
          · subst hxa; exact List.mem_cons_self _ _
          · exact List.mem_cons_of_mem _ ((ih _ x).mpr ⟨h1, by
              intro hc
              rcases List.mem_cons.mp hc with h | h
              · exact hxa h
              · exact h2 h⟩)

theorem nodup_firstUniqAux {α : Type} [DecidableEq α] (l : List α) :
    ∀ seen, (firstUniqAux seen l).Nodup := by
  induction l with
  | nil => intro seen; simp [firstUniqAux]
  | cons a as ih =>
    intro seen
    by_cases ha : a ∈ seen
    · rw [firstUniqAux, if_pos ha]; exact ih seen
    · rw [firstUniqAux, if_neg ha]
      refine List.nodup_cons.mpr ⟨?_, ih _⟩
      intro hmem
      exact ((mem_firstUniqAux as _ a).mp hmem).2 (List.mem_cons_self _ _)

theorem sublist_firstUniqAux {α : Type} [DecidableEq α] (l : List α) :
    ∀ seen, (firstUniqAux seen l).Sublist l := by
  induction l with
  | nil => intro seen; simp [firstUniqAux]
  | cons a as ih =>
    intro seen
    by_cases ha : a ∈ seen
    · rw [firstUniqAux, if_pos ha]
      exact (ih seen).cons a
    · rw [firstUniqAux, if_neg ha]
      exact (ih (a :: seen)).cons₂ a

theorem firstUniqAux_of_nodup {α : Type} [DecidableEq α] (l : List α) :
    ∀ seen, l.Nodup → (∀ y ∈ l, y ∉ seen) → firstUniqAux seen l = l := by
  induction l with
  | nil => intro seen _ _; simp [firstUniqAux]
  | cons a as ih =>
    intro seen hnd hout
    have ha : a ∉ seen := hout a (List.mem_cons_self _ _)
    rw [firstUniqAux, if_neg ha]
    congr 1
    refine ih _ (List.nodup_cons.mp hnd).2 ?_
    intro y hy
    intro hc
    rcases List.mem_cons.mp hc with rfl | hc
    · exact (List.nodup_cons.mp hnd).1 hy
    · exact hout y (List.mem_cons_of_mem _ hy) hc

theorem uniqueInOrder_idem (l : List String) : uniqueInOrder (uniqueInOrder l) = uniqueInOrder l :=
  firstUniqAux_of_nodup _ _ (nodup_firstUniqAux l []) (by intro y _; simp)

/-- C2: `canonicalOrder` (implemented as `uniqueInOrder`) keeps exactly the
subsequence of first occurrences: the example `[A,B,A,C,B] ↦ [A,B,C]` holds,
and for every id sequence the result equals the spec's first-occurrence
reference `firstOccSpec`, contains no duplicates, is a subsequence of the
input, has the same members, and the function is idempotent. -/
theorem c2_canonicalOrder_first_occurrence :
    uniqueInOrder ["A", "B", "A", "C", "B"] = ["A", "B", "C"] ∧
    ∀ l : List String,
      uniqueInOrder l = firstOccSpec l ∧
      (uniqueInOrder l).Nodup ∧
      (uniqueInOrder l).Sublist l ∧
      (∀ x, x ∈ uniqueInOrder l ↔ x ∈ l) ∧
      uniqueInOrder (uniqueInOrder l) = uniqueInOrder l := by
  constructor
  · decide
  · intro l
    refine ⟨?_, nodup_firstUniqAux l [], sublist_firstUniqAux l [], ?_, uniqueInOrder_idem l⟩
    · rw [uniqueInOrder, firstUniqAux_eq_spec]
      congr 1
      simp
    · intro x
      rw [uniqueInOrder, mem_firstUniqAux]
      simp

/-! ## Marker scanner ordering pass (taskpane.ts `getAllCitationIdsInDoc` /
`scanCitationsEverywhere`)

A discovered marker carries the entry-id list it expands to and an opaque
document position.  The host's pairwise oracle (`compareLocationWith`)
answering `before` is embedded as strict comparison of positions; positions
form a total preorder (distinct markers may share a position). -/

structure ScanItem where
  ids : List String
  pos : Nat
deriving DecidableEq

/-- One step of the ordering pass: walk the growing sorted list and splice the
new marker in at the first index whose occupant it compares `before`
(`rel.value === Word.LocationRelation.before`), else append at the end. -/
def insertByPos (x : ScanItem) : List ScanItem → List ScanItem
  | [] => [x]
  | y :: ys => if x.pos < y.pos then x :: y :: ys else y :: insertByPos x ys

/-- The scanner's ordering loop: markers are taken in discovery order and each
is inserted by `insertByPos`. -/
def scanSortAux : List ScanItem → List ScanItem → List ScanItem
  | acc, [] => acc
  | acc, x :: xs => scanSortAux (insertByPos x acc) xs

/-- Full ordering pass over the discovered markers (`sorted` accumulator
starts empty). -/
def scanSort (items : List ScanItem) : List ScanItem := scanSortAux [] items

theorem insertByPos_perm (x : ScanItem) (l : List ScanItem) :
    (insertByPos x l).Perm (x :: l) := by
  induction l with
  | nil => simp [insertByPos]
  | cons y ys ih =>
    rw [insertByPos]
    by_cases h : x.pos < y.pos
    · rw [if_pos h]
    · rw [if_neg h]
      exact (ih.cons y).trans (List.Perm.swap x y ys)

theorem insertByPos_sorted (x : ScanItem) (l : List ScanItem)
    (hl : l.Pairwise (fun a b => a.pos ≤ b.pos)) :
    (insertByPos x l).Pairwise (fun a b => a.pos ≤ b.pos) := by
  induction l with
  | nil => simp [insertByPos]
  | cons y ys ih =>
    rw [insertByPos]
    rcases List.pairwise_cons.mp hl with ⟨hy, hys⟩
    by_cases h : x.pos < y.pos
    · rw [if_pos h]
      refine List.pairwise_cons.mpr ⟨?_, hl⟩
      intro b hb
      rcases List.mem_cons.mp hb with rfl | hb
      · exact Nat.le_of_lt h
      · exact Nat.le_trans (Nat.le_of_lt h) (hy b hb)
    · rw [if_neg h]
      refine List.pairwise_cons.mpr ⟨?_, ih hys⟩
      intro b hb
      have hb' : b ∈ x :: ys := (insertByPos_perm x ys).mem_iff.mp hb
      rcases List.mem_cons.mp hb' with rfl | hb'
      · exact Nat.le_of_not_lt h
      · exact hy b hb'

theorem insertByPos_filter (x : ScanItem) (l : List ScanItem) (p : Nat)
    (hl : l.Pairwise (fun a b => a.pos ≤ b.pos)) :
    (insertByPos x l).filter (fun m => m.pos == p) =
      l.filter (fun m => m.pos == p) ++ [x].filter (fun m => m.pos == p) := by
  induction l with
  | nil => simp [insertByPos]
  | cons y ys ih =>
    rw [insertByPos]
    rcases List.pairwise_cons.mp hl with ⟨hy, hys⟩
    by_cases h : x.pos < y.pos
    · rw [if_pos h]
      by_cases hx : x.pos = p
      · have hnone : ∀ m ∈ y :: ys, ¬ (m.pos == p) = true := by
          intro m hm
          have : x.pos < m.pos := by
            rcases List.mem_cons.mp hm with rfl | hm
            · exact h
            · exact Nat.lt_of_lt_of_le h (hy m hm)
          simp only [beq_iff_eq]
          omega
        rw [List.filter_cons_of_pos (by simp [hx]),
            List.filter_eq_nil_iff.mpr hnone]
        simp [hx]
      · rw [List.filter_cons_of_neg (by simp [hx])]
        simp [hx]
    · rw [if_neg h, List.filter_cons, List.filter_cons, ih hys]
      by_cases hyp : (y.pos == p) = true <;> simp [hyp]

theorem scanSortAux_perm (xs : List ScanItem) :
    ∀ acc, (scanSortAux acc xs).Perm (acc ++ xs) := by
  induction xs with
  | nil => intro acc; simp [scanSortAux]
  | cons x xs ih =>
    intro acc
    rw [scanSortAux]
    refine (ih _).trans ?_
    refine (List.Perm.append_right xs (insertByPos_perm x acc)).trans ?_
    exact List.perm_middle.symm.trans (by simp)

theorem scanSortAux_sorted (xs : List ScanItem) :
    ∀ acc, acc.Pairwise (fun a b => a.pos ≤ b.pos) →
      (scanSortAux acc xs).Pairwise (fun a b => a.pos ≤ b.pos) := by
  induction xs with
  | nil => intro acc h; exact h
  | cons x xs ih =>
    intro acc h
    exact ih _ (insertByPos_sorted x acc h)

theorem scanSortAux_filter (xs : List ScanItem) (p : Nat) :
    ∀ acc, acc.Pairwise (fun a b => a.pos ≤ b.pos) →
      (scanSortAux acc xs).filter (fun m => m.pos == p) =
        acc.filter (fun m => m.pos == p) ++ xs.filter (fun m => m.pos == p) := by
  induction xs with
  | nil => intro acc _; simp [scanSortAux]
  | cons x xs ih =>
    intro acc h
    rw [scanSortAux, ih _ (insertByPos_sorted x acc h), insertByPos_filter x acc p h,
        List.filter_cons]
    by_cases hx : (x.pos == p) = true <;> simp [hx]

/-- C1: the scanner's ordering pass returns a permutation of the discovered
markers, sorted (non-decreasingly) by document position, and for every
position value the markers at that position appear exactly in discovery
order — equal-position markers are never swapped (stable). -/
theorem c1_scan_ordering_correct (items : List ScanItem) :
    (scanSort items).Perm items ∧
    (scanSort items).Pairwise (fun a b => a.pos ≤ b.pos) ∧
    ∀ p, (scanSort items).filter (fun m => m.pos == p) =
      items.filter (fun m => m.pos == p) := by
  refine ⟨?_, scanSortAux_sorted items [] (by simp), ?_⟩
  · have := scanSortAux_perm items []
    simpa [scanSort] using this
  · intro p
    have := scanSortAux_filter items p [] (by simp)
    simpa [scanSort] using this

/-! ## Decimal rendering (JS template `${n}`) and parsing (JS `parseInt`) -/

/-- ASCII digit character for a digit value. -/
def digitCh (d : Nat) : Char := Char.ofNat (48 + d)

/-- Decimal digits of `n`, most significant first, computed with enough fuel
(`fuel > n` suffices). -/
def natCharsCore (fuel n : Nat) : List Char :=
  match fuel with
  | 0 => []
  | fuel + 1 =>
    if n < 10 then [digitCh n]
    else natCharsCore fuel (n / 10) ++ [digitCh (n % 10)]

/-- Decimal rendering of a natural number, as JS template interpolation does. -/
def natChars (n : Nat) : List Char := natCharsCore (n + 1) n

/-- Decimal rendering as a `String`. -/
def natToString (n : Nat) : String := String.mk (natChars n)

/-- JS `parseInt(s, 10)` on an all-digit string: Horner evaluation over the
character codes. -/
def charsToNat (l : List Char) : Nat := l.foldl (fun a c => 10 * a + (c.toNat - 48)) 0

theorem digitCh_facts : ∀ d, d < 10 →
    (digitCh d).isDigit = true ∧ (digitCh d).isWhitespace = false ∧
    digitCh d ≠ ',' ∧ digitCh d ≠ '[' ∧ digitCh d ≠ ']' ∧ digitCh d ≠ '-' ∧
    (digitCh d).toNat = 48 + d := by decide

theorem mem_natCharsCore : ∀ fuel n c, c ∈ natCharsCore fuel n → ∃ d, d < 10 ∧ c = digitCh d := by
  intro fuel
  induction fuel with
  | zero => intro n c h; simp [natCharsCore] at h
  | succ fuel ih =>
    intro n c h
    rw [natCharsCore] at h
    by_cases hn : n < 10
    · rw [if_pos hn] at h
      rcases List.mem_singleton.mp h with rfl
      exact ⟨n, hn, rfl⟩
    · rw [if_neg hn] at h
      rcases List.mem_append.mp h with h | h
      · exact ih _ c h
      · rcases List.mem_singleton.mp h with rfl
        exact ⟨n % 10, Nat.mod_lt _ (by omega), rfl⟩

theorem natCharsCore_ne_nil : ∀ fuel n, fuel ≠ 0 → natCharsCore fuel n ≠ [] := by
  intro fuel n h
  match fuel with
  | 0 => exact absurd rfl h
  | fuel + 1 =>
    rw [natCharsCore]
    by_cases hn : n < 10 <;> simp [hn]

theorem charsToNat_append_digit (xs : List Char) (c : Char) :
    charsToNat (xs ++ [c]) = 10 * charsToNat xs + (c.toNat - 48) := by
  rw [charsToNat, List.foldl_append]
  rfl

theorem charsToNat_natCharsCore : ∀ fuel n, n < fuel → charsToNat (natCharsCore fuel n) = n := by
  intro fuel
  induction fuel with
  | zero => intro n h; omega
  | succ fuel ih =>
    intro n h
    rw [natCharsCore]
    by_cases hn : n < 10
    · rw [if_pos hn]
      have := (digitCh_facts n hn).2.2.2.2.2.2
      simp [charsToNat, this]
    · rw [if_neg hn, charsToNat_append_digit,
          ih (n / 10) (by omega), (digitCh_facts (n % 10) (Nat.mod_lt _ (by omega))).2.2.2.2.2.2]
      omega

theorem mem_natChars (n : Nat) (c : Char) (h : c ∈ natChars n) : ∃ d, d < 10 ∧ c = digitCh d :=
  mem_natCharsCore _ n c h

theorem natChars_ne_nil (n : Nat) : natChars n ≠ [] := natCharsCore_ne_nil _ n (by omega)

theorem charsToNat_natChars (n : Nat) : charsToNat (natChars n) = n :=
  charsToNat_natCharsCore _ n (by omega)

/-! ## A comparator-based stable insertion sort (JS `Array.prototype.sort`) -/

/-- Insert before the first element for which the comparator accepts. -/
def insertLe {α : Type} (le : α → α → Bool) (x : α) : List α → List α
  | [] => [x]
  | y :: ys => if le x y then x :: y :: ys else y :: insertLe le x ys

/-- Comparator sort, modelling `xs.sort(cmp)`. -/
def sortBy {α : Type} (le : α → α → Bool) (l : List α) : List α := l.foldr (insertLe le) []

theorem insertLe_perm {α : Type} (le : α → α → Bool) (x : α) (l : List α) :
    (insertLe le x l).Perm (x :: l) := by
  induction l with
  | nil => simp [insertLe]
  | cons y ys ih =>
    rw [insertLe]
    by_cases h : le x y
    · rw [if_pos h]
    · rw [if_neg (by simp [h])]
      exact (ih.cons y).trans (List.Perm.swap x y ys)

theorem sortBy_perm {α : Type} (le : α → α → Bool) (l : List α) : (sortBy le l).Perm l := by
  induction l with
  | nil => simp [sortBy]
  | cons x xs ih =>
    have : sortBy le (x :: xs) = insertLe le x (sortBy le xs) := rfl
    rw [this]
    exact (insertLe_perm le x _).trans (ih.cons x)

theorem insertLe_pairwise {α : Type} (le : α → α → Bool)
    (htot : ∀ a b, le a b = true ∨ le b a = true)
    (htrans : ∀ a b c, le a b = true → le b c = true → le a c = true)
    (x : α) (l : List α) (hl : l.Pairwise (fun a b => le a b = true)) :
    (insertLe le x l).Pairwise (fun a b => le a b = true) := by
  induction l with
  | nil => simp [insertLe]
  | cons y ys ih =>
    rcases List.pairwise_cons.mp hl with ⟨hy, hys⟩
    rw [insertLe]
    by_cases h : le x y = true
    · rw [if_pos h]
      refine List.pairwise_cons.mpr ⟨?_, hl⟩
      intro b hb
      rcases List.mem_cons.mp hb with rfl | hb
      · exact h
      · exact htrans x y b h (hy b hb)
    · rw [if_neg (by simp [h])]
      refine List.pairwise_cons.mpr ⟨?_, ih hys⟩
      intro b hb
      have hb' : b ∈ x :: ys := (insertLe_perm le x ys).mem_iff.mp hb
      rcases List.mem_cons.mp hb' with hbx | hb'
      · subst hbx
        rcases htot b y with hxy | hyx
        · exact absurd hxy h
        · exact hyx
      · exact hy b hb'

theorem sortBy_pairwise {α : Type} (le : α → α → Bool)
    (htot : ∀ a b, le a b = true ∨ le b a = true)
    (htrans : ∀ a b c, le a b = true → le b c = true → le a c = true)
    (l : List α) : (sortBy le l).Pairwise (fun a b => le a b = true) := by
  induction l with
  | nil => simp [sortBy]
  | cons x xs ih =>
    exact insertLe_pairwise le htot htrans x _ ih

/-! ## `formatCitationGroup` (cite.ts): bracketed range compression -/

/-- JS `out.join(sep)`. -/
def joinChars (sep : List Char) : List (List Char) → List Char
  | [] => []
  | [t] => t
  | t :: ts => t ++ sep ++ joinChars sep ts

/-- The tokens pushed when a run `start..prev` is closed in
`formatCitationGroup`: a singleton renders as `start`, a length-2 run pushes
both endpoints as separate tokens, a longer run renders as `start-prev`. -/
def fcgEmit (s p : Nat) : List (List Char) :=
  if s = p then [natChars s]
  else if p = s + 1 then [natChars s, natChars p]
  else [natChars s ++ '-' :: natChars p]

/-- The main loop of `formatCitationGroup` over the sorted deduplicated array:
`s` is the start and `p` the previous element of the current run. -/
def fcgLoop : Nat → Nat → List Nat → List (List Char)
  | s, p, [] => fcgEmit s p
  | s, p, c :: rest => if c = p + 1 then fcgLoop s c rest else fcgEmit s p ++ fcgLoop c c rest

/-- `Array.from(new Set(indices)).sort((a, b) => a - b)`. -/
def dedupSortNums (l : List Nat) : List Nat :=
  sortBy (fun a b => decide (a ≤ b)) (firstUniqAux [] l)

/-- `formatCitationGroup(indices)` from cite.ts: dedupe, sort ascending, fold
consecutive runs, join with `", "` and wrap in one bracket pair. -/
def formatCitationGroup (indices : List Nat) : String :=
  match dedupSortNums indices with
  | [] => "[]"
  | a :: rest => String.mk ('[' :: joinChars [',', ' '] (fcgLoop a a rest) ++ [']'])

/-! Reference decomposition, modelled from the spec's words (§4.2): split the
sorted deduplicated list into maximal runs of consecutive integers. -/

/-- Modelled from the spec: maximal runs of consecutive integers of a sorted
list, as `(first, last)` pairs. -/
def specRuns : List Nat → List (Nat × Nat)
  | [] => []
  | a :: rest =>
    match specRuns rest with
    | [] => [(a, a)]
    | (s, e) :: rs => if s = a + 1 then (a, e) :: rs else (a, a) :: (s, e) :: rs

/-- Modelled from the spec (as amended): rendering of one maximal run — a
run of length ≥ 3 as `a-b`, a run of length 2 as the two tokens `a`, `b`,
and a singleton as `a`. -/
def specRunRender : Nat × Nat → List (List Char)
  | (s, e) =>
    if s = e then [natChars s]
    else if e = s + 1 then [natChars s, natChars e]
    else [natChars s ++ '-' :: natChars e]

/-- Token sequence of the spec-side decomposition. -/
def specTokens (l : List Nat) : List (List Char) := ((specRuns l).map specRunRender).flatten

/-- Prepend the pending run `s..p` to an already-computed run decomposition,
merging when the decomposition starts directly after `p`. -/
def mergeRun (s p : Nat) : List (Nat × Nat) → List (Nat × Nat)
  | [] => [(s, p)]
  | (q, e) :: rs => if q = p + 1 then (s, e) :: rs else (s, p) :: (q, e) :: rs

theorem specRuns_cons (a : Nat) (l : List Nat) :
    specRuns (a :: l) = mergeRun a a (specRuns l) := by
  rw [specRuns]
  cases h : specRuns l with
  | nil => rfl
  | cons p rs => cases p; rfl

theorem fcgEmit_eq_render (s p : Nat) : fcgEmit s p = specRunRender (s, p) := rfl

theorem mergeRun_merge (s p c : Nat) (h : c = p + 1) (R : List (Nat × Nat)) :
    mergeRun s p (mergeRun c c R) = mergeRun s c R := by
  subst h
  cases R with
  | nil => simp [mergeRun]
  | cons q rs =>
    rcases q with ⟨q1, e1⟩
    by_cases hq : q1 = p + 1 + 1
    · simp [mergeRun, hq]
    · simp [mergeRun, hq]

theorem mergeRun_noMerge (s p c : Nat) (h : ¬ c = p + 1) (R : List (Nat × Nat)) :
    mergeRun s p (mergeRun c c R) = (s, p) :: mergeRun c c R := by
  cases R with
  | nil => simp [mergeRun, h]
  | cons q rs =>
    rcases q with ⟨q1, e1⟩
    by_cases hq : q1 = c + 1
    · simp [mergeRun, hq, h]
    · simp [mergeRun, hq, h]

theorem fcgLoop_eq_specTokens : ∀ (rest : List Nat) (s p : Nat),
    fcgLoop s p rest = ((mergeRun s p (specRuns rest)).map specRunRender).flatten := by
  intro rest
  induction rest with
  | nil => intro s p; simp [fcgLoop, specRuns, mergeRun, fcgEmit_eq_render]
  | cons c rest ih =>
    intro s p
    rw [fcgLoop, specRuns_cons]
    by_cases h : c = p + 1
    · rw [if_pos h, ih s c, mergeRun_merge s p c h]
    · rw [if_neg h, ih c c, fcgEmit_eq_render, mergeRun_noMerge s p c h]
      simp

/-- C3 (counterexample): on the spec's own example set `{1,2,3,5,7,8}` the
code produces `"[1-3, 5, 7, 8]"` — bracketed, joined with `", "`, and with
the length-2 run `7,8` emitted as the two tokens `7`, `8` — not the claimed
`"1-3,5,7-8"`. -/
theorem c3_compress_counterexample :
    formatCitationGroup [1, 2, 3, 5, 7, 8] = "[1-3, 5, 7, 8]" ∧
    "[1-3, 5, 7, 8]" ≠ "1-3,5,7-8" := by
  constructor <;> decide

/-- C3 (amended): `formatCitationGroup` dedupes, sorts ascending, and folds
maximal runs of consecutive integers, rendering a run of length ≥ 3 as
`a-b`, a run of length 2 as the two separate tokens `a`, `b`, and a
singleton as `a`; the tokens are joined by `", "` and the whole list is
wrapped in one `[...]` pair, so `{1,2,3,5,7,8}` renders as
`"[1-3, 5, 7, 8]"`. -/
theorem c3_compress_amended :
    (∀ nums : List Nat,
      formatCitationGroup nums =
        String.mk ('[' :: joinChars [',', ' '] (specTokens (dedupSortNums nums)) ++ [']']) ∧
      (dedupSortNums nums).Nodup ∧
      (dedupSortNums nums).Pairwise (· ≤ ·) ∧
      (∀ x, x ∈ dedupSortNums nums ↔ x ∈ nums)) ∧
    formatCitationGroup [1, 2, 3, 5, 7, 8] = "[1-3, 5, 7, 8]" := by
  constructor
  · intro nums
    refine ⟨?_, ?_, ?_, ?_⟩
    · rw [formatCitationGroup]
      cases h : dedupSortNums nums with
      | nil =>
        simp only [specTokens, specRuns, List.map_nil, List.flatten_nil]
        decide
      | cons a rest =>
        rw [specTokens, specRuns_cons, ← fcgLoop_eq_specTokens]
    · exact ((sortBy_perm _ _).nodup_iff).mpr (nodup_firstUniqAux nums [])
    · have hp := sortBy_pairwise (fun a b : Nat => decide (a ≤ b))
        (by
          intro a b
          by_cases h : a ≤ b
          · left; simpa using h
          · right; simp; omega)
        (by
          intro a b c h1 h2
          simp at h1 h2 ⊢
          omega)
        (firstUniqAux [] nums)
      exact hp.imp (by intro a b h; simpa using h)
    · intro x
      rw [dedupSortNums, (sortBy_perm _ _).mem_iff, mem_firstUniqAux]
      simp
  · decide

/-! ## `parseBracketIndices` (cite.ts) -/

/-- JS `String.prototype.trim` on a character list: strip whitespace from
both ends. -/
def trimChars (l : List Char) : List Char :=
  ((l.dropWhile Char.isWhitespace).reverse.dropWhile Char.isWhitespace).reverse

/-- JS `s.split(sep)` for a one-character separator. -/
def splitChars (sep : Char) : List Char → List (List Char)
  | [] => [[]]
  | c :: rest =>
    match splitChars sep rest with
    | [] => [[]]
    | h :: t => if c = sep then [] :: h :: t else (c :: h) :: t

/-- Scanner for the global regex `/\[(.*?)\]/g`: collects the contents of
each lazily-closed bracket pair, left to right.  The second argument holds
the accumulated content of the currently open bracket, if any; an
unterminated open bracket yields no further match. -/
def extractBrackets : List Char → Option (List Char) → List (List Char)
  | [], _ => []
  | c :: rest, none =>
    if c = '[' then extractBrackets rest (some []) else extractBrackets rest none
  | c :: rest, some acc =>
    if c = ']' then acc :: extractBrackets rest none
    else extractBrackets rest (some (acc ++ [c]))

/-- The test `/^\d+\s*-\s*\d+$/` applied to one comma-separated part. -/
def matchesRange (t : List Char) : Bool :=
  let d1 := t.takeWhile Char.isDigit
  let r1 := t.dropWhile Char.isDigit
  let r2 := r1.dropWhile Char.isWhitespace
  match r2 with
  | '-' :: r3 =>
    let r4 := r3.dropWhile Char.isWhitespace
    let d2 := r4.takeWhile Char.isDigit
    decide (d1 ≠ []) && decide (d2 ≠ []) && decide (r4.dropWhile Char.isDigit = [])
  | _ => false

/-- One comma-separated part of a bracket group: `/^\d+$/` pushes the
integer, `/^\d+\s*-\s*\d+$/` expands to the whole inclusive range
(direction-normalised via `min`/`max`), anything else is skipped. -/
def parseToken (t : List Char) : List Nat :=
  if decide (t ≠ []) && t.all Char.isDigit then [charsToNat t]
  else if matchesRange t then
    match splitChars '-' t with
    | x :: y :: _ =>
      let a := charsToNat (trimChars x)
      let b := charsToNat (trimChars y)
      List.range' (min a b) (max a b + 1 - min a b)
    | _ => []
  else []

/-- `parseBracketIndices(text)` from cite.ts: scan all bracket groups, split
each on commas, trim, drop empty parts, and accumulate all integers. -/
def parseBracketIndices (text : String) : List Nat :=
  ((extractBrackets text.data none).map fun block =>
    ((((splitChars ',' block).map trimChars).filter
        (fun p => decide (p ≠ []))).map parseToken).flatten).flatten

/-! Helper lemmas about `takeWhile`/`dropWhile`/`trim`/`split` on lists whose
character classes are known. -/

theorem dropWhile_all_false {p : Char → Bool} : ∀ l : List Char,
    (∀ c ∈ l, p c = false) → l.dropWhile p = l := by
  intro l h
  cases l with
  | nil => rfl
  | cons c rest =>
    rw [List.dropWhile_cons, h c (List.mem_cons_self _ _)]
    simp

theorem takeWhile_all_true {p : Char → Bool} : ∀ l : List Char,
    (∀ c ∈ l, p c = true) → l.takeWhile p = l := by
  intro l
  induction l with
  | nil => intro _; rfl
  | cons c rest ih =>
    intro h
    rw [List.takeWhile_cons, h c (List.mem_cons_self _ _)]
    simp only [if_pos]
    rw [ih (fun x hx => h x (List.mem_cons_of_mem _ hx))]

theorem dropWhile_all_true {p : Char → Bool} : ∀ l : List Char,
    (∀ c ∈ l, p c = true) → l.dropWhile p = [] := by
  intro l
  induction l with
  | nil => intro _; rfl
  | cons c rest ih =>
    intro h
    rw [List.dropWhile_cons, h c (List.mem_cons_self _ _)]
    simp only [if_pos]
    exact ih (fun x hx => h x (List.mem_cons_of_mem _ hx))

theorem takeWhile_append_stop {p : Char → Bool} : ∀ (xs : List Char) (y : Char) (ys : List Char),
    (∀ x ∈ xs, p x = true) → p y = false →
    (xs ++ y :: ys).takeWhile p = xs ∧ (xs ++ y :: ys).dropWhile p = y :: ys := by
  intro xs y ys hxs hy
  induction xs with
  | nil =>
    simp only [List.nil_append]
    rw [List.takeWhile_cons, List.dropWhile_cons, hy]
    simp
  | cons x rest ih =>
    have hx : p x = true := hxs x (List.mem_cons_self _ _)
    have := ih (fun c hc => hxs c (List.mem_cons_of_mem _ hc))
    simp only [List.cons_append]
    rw [List.takeWhile_cons, List.dropWhile_cons, hx]
    simp only [if_pos]
    exact ⟨by rw [this.1], by rw [this.2]⟩

theorem trimChars_no_ws : ∀ l : List Char,
    (∀ c ∈ l, c.isWhitespace = false) → trimChars l = l := by
  intro l h
  rw [trimChars, dropWhile_all_false l h,
      dropWhile_all_false l.reverse (fun c hc => h c (List.mem_reverse.mp hc)),
      List.reverse_reverse]

theorem trimChars_space_cons : ∀ l : List Char,
    (∀ c ∈ l, c.isWhitespace = false) → trimChars (' ' :: l) = l := by
  intro l h
  rw [trimChars, List.dropWhile_cons]
  have : (' ' : Char).isWhitespace = true := by decide
  rw [this]
  simp only [if_pos]
  rw [dropWhile_all_false l h,
      dropWhile_all_false l.reverse (fun c hc => h c (List.mem_reverse.mp hc)),
      List.reverse_reverse]

theorem splitChars_ne_nil (sep : Char) : ∀ l, splitChars sep l ≠ [] := by
  intro l
  cases l with
  | nil => simp [splitChars]
  | cons c rest =>
    rw [splitChars]
    cases h : splitChars sep rest with
    | nil => simp
    | cons hh tt =>
      by_cases hc : c = sep <;> simp [hc]

theorem splitChars_no_sep (sep : Char) : ∀ xs : List Char,
    (∀ c ∈ xs, c ≠ sep) → splitChars sep xs = [xs] := by
  intro xs
  induction xs with
  | nil => intro _; rfl
  | cons c rest ih =>
    intro h
    rw [splitChars, ih (fun x hx => h x (List.mem_cons_of_mem _ hx))]
    simp [h c (List.mem_cons_self _ _)]

theorem splitChars_append_sep (sep : Char) : ∀ (xs l : List Char),
    (∀ c ∈ xs, c ≠ sep) → splitChars sep (xs ++ sep :: l) = xs :: splitChars sep l := by
  intro xs l
  induction xs with
  | nil =>
    intro _
    simp only [List.nil_append]
    rw [splitChars]
    cases h : splitChars sep l with
    | nil => exact absurd h (splitChars_ne_nil sep l)
    | cons hh tt => simp
  | cons c rest ih =>
    intro h
    simp only [List.cons_append]
    rw [splitChars, ih (fun x hx => h x (List.mem_cons_of_mem _ hx))]
    simp [h c (List.mem_cons_self _ _)]

theorem splitChars_cons_ne (sep c : Char) (l hh : List Char) (tt : List (List Char))
    (hc : c ≠ sep) (h : splitChars sep l = hh :: tt) :
    splitChars sep (c :: l) = (c :: hh) :: tt := by
  rw [splitChars, h]
  simp [hc]

theorem joinChars_cons₂ (sep t t1 : List Char) (ts1 : List (List Char)) :
    joinChars sep (t :: t1 :: ts1) = t ++ sep ++ joinChars sep (t1 :: ts1) := rfl

theorem mem_joinChars (sep : List Char) : ∀ (ts : List (List Char)) (c : Char),
    c ∈ joinChars sep ts → c ∈ sep ∨ ∃ t ∈ ts, c ∈ t := by
  intro ts
  induction ts with
  | nil => intro c h; simp [joinChars] at h
  | cons t ts ih =>
    intro c h
    cases ts with
    | nil =>
      right
      exact ⟨t, List.mem_cons_self _ _, h⟩
    | cons t1 ts1 =>
      rw [joinChars_cons₂] at h
      rcases List.mem_append.mp h with h | h
      · rcases List.mem_append.mp h with h | h
        · exact Or.inr ⟨t, List.mem_cons_self _ _, h⟩
        · exact Or.inl h
      · rcases ih c h with h | ⟨u, hu, hcu⟩
        · exact Or.inl h
        · exact Or.inr ⟨u, List.mem_cons_of_mem _ hu, hcu⟩

theorem splitChars_joinChars : ∀ (ts : List (List Char)) (t : List Char),
    (∀ u ∈ t :: ts, ∀ c ∈ u, c ≠ ',') →
    splitChars ',' (joinChars [',', ' '] (t :: ts)) = t :: ts.map (fun u => ' ' :: u) := by
  intro ts
  induction ts with
  | nil =>
    intro t h
    rw [joinChars, splitChars_no_sep ',' t (h t (List.mem_cons_self _ _))]
    rfl
  | cons t1 ts1 ih =>
    intro t h
    have hjoin : joinChars [',', ' '] (t :: t1 :: ts1) =
        t ++ ',' :: ' ' :: joinChars [',', ' '] (t1 :: ts1) := by
      rw [joinChars_cons₂]
      simp
    rw [hjoin, splitChars_append_sep ',' t _ (h t (List.mem_cons_self _ _))]
    have hrec := ih t1 (fun u hu => h u (List.mem_cons_of_mem _ hu))
    rw [splitChars_cons_ne ',' ' ' _ _ _ (by decide) hrec]
    rfl

/-! Tokens produced by `formatCitationGroup` consist of decimal digits and at
most one `-`. -/

/-- A well-formed compressor token: nonempty, every character a decimal digit
or the dash. -/
def cleanTok (t : List Char) : Prop :=
  t ≠ [] ∧ ∀ c ∈ t, (∃ d, d < 10 ∧ c = digitCh d) ∨ c = '-'

theorem cleanTok_char_facts {t : List Char} (h : cleanTok t) :
    ∀ c ∈ t, c.isWhitespace = false ∧ c ≠ ',' ∧ c ≠ '[' ∧ c ≠ ']' := by
  intro c hc
  rcases h.2 c hc with ⟨d, hd, rfl⟩ | rfl
  · have := digitCh_facts d hd
    exact ⟨this.2.1, this.2.2.1, this.2.2.2.1, this.2.2.2.2.1⟩
  · refine ⟨by decide, by decide, by decide, by decide⟩

theorem cleanTok_natChars (n : Nat) : cleanTok (natChars n) := by
  refine ⟨natChars_ne_nil n, ?_⟩
  intro c hc
  exact Or.inl (mem_natChars n c hc)

theorem cleanTok_rangeTok (a b : Nat) : cleanTok (natChars a ++ '-' :: natChars b) := by
  refine ⟨by simp, ?_⟩
  intro c hc
  rcases List.mem_append.mp hc with hc | hc
  · exact Or.inl (mem_natChars a c hc)
  · rcases List.mem_cons.mp hc with rfl | hc
    · exact Or.inr rfl
    · exact Or.inl (mem_natChars b c hc)

theorem cleanTok_fcgEmit (s p : Nat) : ∀ t ∈ fcgEmit s p, cleanTok t := by
  intro t ht
  rw [fcgEmit] at ht
  split_ifs at ht
  · rcases List.mem_singleton.mp ht with rfl
    exact cleanTok_natChars s
  · rcases List.mem_cons.mp ht with rfl | ht
    · exact cleanTok_natChars s
    · rcases List.mem_singleton.mp ht with rfl
      exact cleanTok_natChars p
  · rcases List.mem_singleton.mp ht with rfl
    exact cleanTok_rangeTok s p

theorem cleanTok_fcgLoop : ∀ (rest : List Nat) (s p : Nat), ∀ t ∈ fcgLoop s p rest, cleanTok t := by
  intro rest
  induction rest with
  | nil => intro s p t ht; exact cleanTok_fcgEmit s p t ht
  | cons c rest ih =>
    intro s p t ht
    rw [fcgLoop] at ht
    by_cases h : c = p + 1
    · rw [if_pos h] at ht
      exact ih s c t ht
    · rw [if_neg h] at ht
      rcases List.mem_append.mp ht with ht | ht
      · exact cleanTok_fcgEmit s p t ht
      · exact ih c c t ht

theorem fcgLoop_ne_nil : ∀ (rest : List Nat) (s p : Nat), fcgLoop s p rest ≠ [] := by
  intro rest
  induction rest with
  | nil =>
    intro s p
    rw [fcgLoop, fcgEmit]
    split_ifs <;> simp
  | cons c rest ih =>
    intro s p
    rw [fcgLoop]
    by_cases h : c = p + 1
    · rw [if_pos h]; exact ih s c
    · rw [if_neg h]
      rw [fcgEmit]
      split_ifs <;> simp

/-! Behaviour of `parseToken` on the exact token shapes the compressor
emits. -/

theorem all_isDigit_natChars (n : Nat) : (natChars n).all Char.isDigit = true := by
  rw [List.all_eq_true]
  intro c hc
  rcases mem_natChars n c hc with ⟨d, hd, rfl⟩
  exact (digitCh_facts d hd).1

theorem parseToken_natChars (n : Nat) : parseToken (natChars n) = [n] := by
  rw [parseToken, if_pos]
  · rw [charsToNat_natChars]
  · rw [all_isDigit_natChars]
    simp [natChars_ne_nil n]

theorem no_ws_natChars (n : Nat) : ∀ c ∈ natChars n, c.isWhitespace = false := by
  intro c hc
  rcases mem_natChars n c hc with ⟨d, hd, rfl⟩
  exact (digitCh_facts d hd).2.1

theorem no_dash_natChars (n : Nat) : ∀ c ∈ natChars n, c ≠ '-' := by
  intro c hc
  rcases mem_natChars n c hc with ⟨d, hd, rfl⟩
  exact (digitCh_facts d hd).2.2.2.2.2.1

theorem matchesRange_rangeTok (a b : Nat) :
    matchesRange (natChars a ++ '-' :: natChars b) = true := by
  have hsplit := takeWhile_append_stop (natChars a) '-' (natChars b)
    (fun c hc => by
      rcases mem_natChars a c hc with ⟨d, hd, rfl⟩
      exact (digitCh_facts d hd).1)
    (by decide)
  rw [matchesRange]
  simp only [hsplit.1, hsplit.2]
  rw [List.dropWhile_cons]
  have : ('-' : Char).isWhitespace = false := by decide
  rw [this]
  simp only [Bool.false_eq_true, if_false]
  rw [dropWhile_all_false (natChars b) (no_ws_natChars b),
      takeWhile_all_true (natChars b) (fun c hc => by
        rcases mem_natChars b c hc with ⟨d, hd, rfl⟩
        exact (digitCh_facts d hd).1),
      dropWhile_all_true (natChars b) (fun c hc => by
        rcases mem_natChars b c hc with ⟨d, hd, rfl⟩
        exact (digitCh_facts d hd).1)]
  simp [natChars_ne_nil a, natChars_ne_nil b]

theorem parseToken_rangeTok (a b : Nat) (hab : a ≤ b) :
    parseToken (natChars a ++ '-' :: natChars b) = List.range' a (b + 1 - a) := by
  rw [parseToken, if_neg, if_pos (matchesRange_rangeTok a b)]
  · rw [splitChars_append_sep '-' (natChars a) (natChars b) (no_dash_natChars a),
        splitChars_no_sep '-' (natChars b) (no_dash_natChars b)]
    simp only
    rw [trimChars_no_ws (natChars a) (no_ws_natChars a),
        trimChars_no_ws (natChars b) (no_ws_natChars b),
        charsToNat_natChars, charsToNat_natChars]
    rw [Nat.min_eq_left hab, Nat.max_eq_right hab]
  · intro hcontra
    rcases (Bool.and_eq_true _ _).mp hcontra with ⟨_, hall⟩
    have := List.all_eq_true.mp hall '-' (by simp)
    simp at this

theorem fcgEmit_values (s p : Nat) (hsp : s ≤ p) (n : Nat) :
    n ∈ ((fcgEmit s p).map parseToken).flatten ↔ (s ≤ n ∧ n ≤ p) := by
  rw [fcgEmit]
  split_ifs with h1 h2
  · subst h1
    simp [parseToken_natChars]
    omega
  · subst h2
    simp [parseToken_natChars]
    omega
  · have hab : s ≤ p := hsp
    simp only [List.map_cons, List.map_nil, List.flatten_cons, List.flatten_nil,
      List.append_nil, parseToken_rangeTok s p hab]
    rw [List.mem_range']
    constructor
    · rintro ⟨i, hi, rfl⟩
      omega
    · intro hn
      exact ⟨n - s, by omega, by omega⟩

theorem fcgLoop_values : ∀ (rest : List Nat) (s p : Nat), s ≤ p → ∀ n,
    (n ∈ ((fcgLoop s p rest).map parseToken).flatten ↔ ((s ≤ n ∧ n ≤ p) ∨ n ∈ rest)) := by
  intro rest
  induction rest with
  | nil =>
    intro s p hsp n
    rw [fcgLoop, fcgEmit_values s p hsp n]
    simp
  | cons c rest ih =>
    intro s p hsp n
    rw [fcgLoop]
    by_cases h : c = p + 1
    · rw [if_pos h, ih s c (by omega) n]
      subst h
      simp only [List.mem_cons]
      constructor
      · rintro (hr | hr)
        · by_cases hn : n = p + 1
          · exact Or.inr (Or.inl hn)
          · exact Or.inl (by omega)
        · exact Or.inr (Or.inr hr)
      · rintro (hr | hr | hr)
        · exact Or.inl (by omega)
        · exact Or.inl (by omega)
        · exact Or.inr hr
    · rw [if_neg h, List.map_append, List.flatten_append, List.mem_append,
          fcgEmit_values s p hsp n, ih c c (Nat.le_refl c) n]
      simp only [List.mem_cons]
      constructor
      · rintro (hr | hr | hr)
        · exact Or.inl hr
        · exact Or.inr (Or.inl (by omega))
        · exact Or.inr (Or.inr hr)
      · rintro (hr | hr | hr)
        · exact Or.inl hr
        · exact Or.inr (Or.inl (by omega))
        · exact Or.inr (Or.inr hr)

theorem extractBrackets_body : ∀ (body : List Char),
    (∀ c ∈ body, c ≠ '[' ∧ c ≠ ']') → ∀ (acc rest : List Char),
    extractBrackets (body ++ ']' :: rest) (some acc) =
      (acc ++ body) :: extractBrackets rest none := by
  intro body
  induction body with
  | nil =>
    intro _ acc rest
    simp [extractBrackets]
  | cons c body ih =>
    intro h acc rest
    have hc := h c (List.mem_cons_self _ _)
    simp only [List.cons_append]
    rw [extractBrackets, if_neg hc.2,
        ih (fun x hx => h x (List.mem_cons_of_mem _ hx)) (acc ++ [c]) rest]
    simp

theorem filter_ne_nil_id : ∀ (l : List (List Char)),
    (∀ x ∈ l, x ≠ []) → l.filter (fun p => decide (p ≠ [])) = l := by
  intro l h
  rw [List.filter_eq_self]
  intro a ha
  simp [h a ha]

/-- C4: parsing the bracketed compression of any finite set of integers
recovers exactly that set: `parseBracketIndices (formatCitationGroup s)` has
the same members as `s`. -/
theorem c4_parse_compress_roundtrip (s : List Nat) (n : Nat) :
    n ∈ parseBracketIndices (formatCitationGroup s) ↔ n ∈ s := by
  have hmem : ∀ x, x ∈ dedupSortNums s ↔ x ∈ s := fun x => by
    rw [dedupSortNums, (sortBy_perm _ _).mem_iff, mem_firstUniqAux]
    simp
  rw [formatCitationGroup]
  cases h : dedupSortNums s with
  | nil =>
    have hempty : parseBracketIndices "[]" = [] := by decide
    rw [hempty]
    simp only [List.not_mem_nil, false_iff]
    intro hn
    have := (hmem n).mpr hn
    rw [h] at this
    simp at this
  | cons a rest =>
    cases htoks : fcgLoop a a rest with
    | nil => exact absurd htoks (fcgLoop_ne_nil rest a a)
    | cons t ts =>
      have hclean : ∀ u ∈ t :: ts, cleanTok u := by
        intro u hu
        exact cleanTok_fcgLoop rest a a u (htoks ▸ hu)
      have hbody : ∀ c ∈ joinChars [',', ' '] (t :: ts), c ≠ '[' ∧ c ≠ ']' := by
        intro c hc
        rcases mem_joinChars _ _ c hc with hc | ⟨u, hu, hcu⟩
        · rcases List.mem_cons.mp hc with rfl | hc
          · exact ⟨by decide, by decide⟩
          · rcases List.mem_singleton.mp hc with rfl
            exact ⟨by decide, by decide⟩
        · have := cleanTok_char_facts (hclean u hu) c hcu
          exact ⟨this.2.2.1, this.2.2.2⟩
      have hdata : (String.mk ('[' :: joinChars [',', ' '] (fcgLoop a a rest) ++ [']'])).data
          = '[' :: (joinChars [',', ' '] (t :: ts) ++ ']' :: []) := by
        rw [htoks]
        rfl
      rw [parseBracketIndices, hdata, extractBrackets, if_pos rfl,
          extractBrackets_body _ hbody [] []]
      simp only [List.nil_append, extractBrackets, List.map_cons, List.map_nil,
        List.flatten_cons, List.flatten_nil, List.append_nil]
      rw [splitChars_joinChars ts t (by
        intro u hu c hc
        exact (cleanTok_char_facts (hclean u hu) c hc).2.1)]
      have htrim : List.map trimChars (t :: List.map (fun u => ' ' :: u) ts) = t :: ts := by
        rw [List.map_cons, List.map_map,
            trimChars_no_ws t (fun c hc =>
              (cleanTok_char_facts (hclean t (List.mem_cons_self _ _)) c hc).1)]
        congr 1
        have : ∀ u ∈ ts, (trimChars ∘ fun v => ' ' :: v) u = u := by
          intro u hu
          simp only [Function.comp]
          exact trimChars_space_cons u (fun c hc =>
            (cleanTok_char_facts (hclean u (List.mem_cons_of_mem _ hu)) c hc).1)
        calc List.map (trimChars ∘ fun v => ' ' :: v) ts
            = List.map id ts := List.map_congr_left this
          _ = ts := List.map_id ts
      rw [htrim, filter_ne_nil_id _ (fun x hx => (hclean x hx).1)]
      have hvals := fcgLoop_values rest a a (Nat.le_refl a) n
      rw [htoks] at hvals
      rw [hvals]
      have hs : n ∈ s ↔ n ∈ a :: rest := by
        rw [← hmem n, h]
      rw [hs]
      simp only [List.mem_cons]
      constructor
      · rintro (hr | hr)
        · exact Or.inl (by omega)
        · exact Or.inr hr
      · rintro (hr | hr)
        · exact Or.inl (by omega)
        · exact Or.inr hr

/-! ## Bibliographic entries and the style formatter (cite.ts)

`BibEntry.fields` is a string record in the source; the formatter reads only
the fields below, so the embedding carries exactly those, with `""` playing
the role of an absent field (JS falsiness). -/

structure BibEntry where
  id : String
  author : String
  editor : String
  year : String
  title : String
  journal : String
  booktitle : String
  volume : String
  number : String
  pages : String
  doi : String
deriving DecidableEq

/-- JS `toLowerCase`, character by character. -/
def jsToLower (s : String) : String := String.mk (s.data.map Char.toLower)

/-- `normalizeStyle(style)` from cite.ts: `(style || "apa").toLowerCase()`. -/
def normalizeStyle (style : String) : String := jsToLower (jsOr style "apa")

/-- `isNumericStyle(sty)` from cite.ts. -/
def isNumericStyle (sty : String) : Bool :=
  let s := normalizeStyle sty
  s == "ieee" || s == "numeric" || s == "vancouver" || s == "acs"

/-- JS `startsWith`. -/
def jsStartsWith (s pre : String) : Bool := pre.data.isPrefixOf s.data

/-- JS `s.split(sep)` for a nonempty separator, fuel-structural so the kernel
can evaluate it (`fuel > |l|` suffices). -/
def jsSplitGo (sep : List Char) (fuel : Nat) (l : List Char) : List (List Char) :=
  match fuel with
  | 0 => [l]
  | fuel + 1 =>
    match l with
    | [] => [[]]
    | c :: rest =>
      if sep.isPrefixOf l then [] :: jsSplitGo sep fuel (l.drop sep.length)
      else
        match jsSplitGo sep fuel rest with
        | [] => [[]]
        | h :: t => (c :: h) :: t

/-- JS `s.split(sep)`. -/
def jsSplit (sep s : String) : List String :=
  (jsSplitGo sep.data (s.data.length + 1) s.data).map String.mk

/-- JS `s.trim()`. -/
def jsTrim (s : String) : String := String.mk (trimChars s.data)

/-- The `a` of `formatBibliographyEntry`:
`e.fields.author || e.fields.editor || "Anon"`. -/
def bibAuthorField (e : BibEntry) : String := jsOr (jsOr e.author e.editor) "Anon"

/-- `firstAuthorSurname(e)` from cite.ts:
`(author || editor || "Anon").split(" and ")[0].split(",")[0].trim()`. -/
def firstAuthorSurname (e : BibEntry) : String :=
  let a := bibAuthorField e
  jsTrim ((jsSplit "," ((jsSplit " and " a).headD "")).headD "")

/-- `formatInText(e, style, index)` from cite.ts. -/
def formatInText (e : BibEntry) (style : String) (index : Nat) : String :=
  let sty := normalizeStyle style
  if isNumericStyle sty then "[" ++ natToString index ++ "]"
  else "(" ++ firstAuthorSurname e ++ ", " ++ jsOr e.year "n.d." ++ ")"

/-- JS `s.replace(pat, repl)` (first occurrence only), fuel-structural. -/
def replaceOnceGo (pat repl : List Char) (fuel : Nat) (l : List Char) : List Char :=
  match fuel with
  | 0 => l
  | fuel + 1 =>
    match l with
    | [] => []
    | c :: rest =>
      if pat.isPrefixOf l then repl ++ l.drop pat.length
      else c :: replaceOnceGo pat repl fuel rest

/-- JS `s.replace(pat, repl)` for string patterns. -/
def jsReplaceOnce (s pat repl : String) : String :=
  String.mk (replaceOnceGo pat.data repl.data (s.data.length + 1) s.data)

/-- JS `s.replace(/^, /, "")`. -/
def jsStripLeadCommaSpace (s : String) : String :=
  if (", ").data.isPrefixOf s.data then String.mk (s.data.drop 2) else s

/-- `formatBibliographyEntry(e, style, index)` from cite.ts: one full
reference line per style (the source's `switch` on the normalised style,
`apa` being the default branch). -/
def formatBibliographyEntry (e : BibEntry) (style : String) (index : Nat) : String :=
  let sty := normalizeStyle style
  let a := bibAuthorField e
  let y := jsOr e.year "n.d."
  let t := e.title
  let j := jsOr e.journal e.booktitle
  let v := e.volume
  let n := if e.number ≠ "" then "(" ++ e.number ++ ")" else ""
  let p := if e.pages ≠ "" then ", " ++ e.pages else ""
  let doi := if e.doi ≠ "" then " https://doi.org/" ++ e.doi else ""
  if sty = "ieee" ∨ sty = "numeric" then
    "[" ++ natToString index ++ "]" ++ " " ++ a ++ ". “" ++ t ++ ",” " ++ j ++ " " ++
      v ++ n ++ p ++ ", " ++ y ++ "." ++ doi
  else if sty = "vancouver" then
    natToString index ++ "." ++ " " ++ a ++ ". " ++ t ++ ". " ++ j ++ " " ++ y ++
      (if v ≠ "" then ";" ++ v else "") ++ (if n ≠ "" then "(" ++ n ++ ")" else "") ++
      (if p ≠ "" then ":" ++ jsStripLeadCommaSpace (jsReplaceOnce p ", " "-") else "") ++ "."
  else if sty = "harvard" then
    a ++ ", " ++ y ++ ". " ++ t ++ ". " ++ j ++ (if v ≠ "" then ", " ++ v else "") ++
      (if n ≠ "" then " " ++ n else "") ++ p ++ "."
  else if sty = "acs" then
    a ++ ". " ++ t ++ ". " ++ j ++ " " ++ y ++ (if v ≠ "" then ", " ++ v else "") ++
      (if n ≠ "" then " " ++ n else "") ++ p ++ "."
  else
    a ++ " (" ++ y ++ "). " ++ t ++ ". " ++ j ++ (if v ≠ "" then ", " ++ v else "") ++
      (if n ≠ "" then " " ++ n else "") ++ p ++ "." ++ doi

/-- Sample entry: two authors, all fields present. -/
def eSmith : BibEntry :=
  ⟨"smith2020", "Smith, John and Doe, Jane", "", "2020", "A Title", "J", "", "7", "2", "10-20", ""⟩

/-- Sample entry: no author, only an editor, no year. -/
def eEditor : BibEntry := ⟨"ed1", "", "Editor, Ed", "", "T", "", "B", "", "", "", ""⟩

/-- Sample entry: all fields empty. -/
def eAnon : BibEntry := ⟨"anon1", "", "", "", "", "", "", "", "", "", ""⟩

/-- C8: `formatInText` returns `"[index]"` for the numeric class
(ieee, numeric, vancouver, acs — case-insensitively), and otherwise returns
`"(Surname, Year)"` where the surname is the first token of the author (or
editor) field before a comma or `" and "`, with `"Anon"`/`"n.d."` defaults;
checked both in general shape and on concrete entries exercising the
two-author split, the editor fallback and the missing-field defaults. -/
theorem c8_formatInText_shape :
    (∀ (e : BibEntry) (i : Nat) (sty : String),
        sty ∈ (["ieee", "numeric", "vancouver", "acs"] : List String) →
        formatInText e sty i = "[" ++ natToString i ++ "]") ∧
    (∀ (e : BibEntry) (i : Nat), formatInText e "IEEE" i = "[" ++ natToString i ++ "]") ∧
    (∀ (e : BibEntry) (i : Nat) (sty : String),
        sty ∈ (["apa", "mla", "harvard"] : List String) →
        formatInText e sty i =
          "(" ++ firstAuthorSurname e ++ ", " ++ jsOr e.year "n.d." ++ ")") ∧
    firstAuthorSurname eSmith = "Smith" ∧
    formatInText eSmith "apa" 3 = "(Smith, 2020)" ∧
    formatInText eEditor "apa" 1 = "(Editor, n.d.)" ∧
    formatInText eAnon "mla" 1 = "(Anon, n.d.)" := by
  refine ⟨?_, ?_, ?_, by decide, by decide, by decide, by decide⟩
  · intro e i sty h
    simp only [List.mem_cons, List.not_mem_nil, or_false] at h
    rcases h with rfl | rfl | rfl | rfl <;> rfl
  · intro e i
    rfl
  · intro e i sty h
    simp only [List.mem_cons, List.not_mem_nil, or_false] at h
    rcases h with rfl | rfl | rfl <;> rfl

theorem c8_formatInText_shape_witness :
    formatInText eSmith "vancouver" 2 = "[" ++ natToString 2 ++ "]" ∧
    formatInText eSmith "harvard" 2 =
      "(" ++ firstAuthorSurname eSmith ++ ", " ++ jsOr eSmith.year "n.d." ++ ")" :=
  ⟨c8_formatInText_shape.1 eSmith 2 "vancouver" (by decide),
   c8_formatInText_shape.2.2.1 eSmith 2 "harvard" (by decide)⟩

/-! ## C6: index prefixes of bibliography lines -/

theorem isPrefixOf_self : ∀ l : List Char, l.isPrefixOf l = true := by
  intro l
  induction l with
  | nil => rfl
  | cons c cs ih => simp [List.isPrefixOf, ih]

theorem isPrefixOf_append_ext : ∀ (l m t : List Char),
    l.isPrefixOf m = true → l.isPrefixOf (m ++ t) = true := by
  intro l
  induction l with
  | nil =>
    intro m t _
    have hnil : ∀ x : List Char, ([] : List Char).isPrefixOf x = true := by
      intro x; cases x <;> rfl
    exact hnil _
  | cons c cs ih =>
    intro m t h
    cases m with
    | nil => simp [List.isPrefixOf] at h
    | cons d ds =>
      rw [List.cons_append]
      simp only [List.isPrefixOf] at h ⊢
      rcases (Bool.and_eq_true _ _).mp h with ⟨h1, h2⟩
      rw [h1, ih ds t h2]
      rfl

theorem jsStartsWith_self (p : String) : jsStartsWith p p = true :=
  isPrefixOf_self p.data

theorem jsStartsWith_append_right (s t p : String) (h : jsStartsWith s p = true) :
    jsStartsWith (s ++ t) p = true := by
  rw [jsStartsWith] at h ⊢
  rw [String.data_append]
  exact isPrefixOf_append_ext _ _ _ h

theorem fbe_ieee (e : BibEntry) (i : Nat) :
    formatBibliographyEntry e "ieee" i =
      "[" ++ natToString i ++ "]" ++ " " ++ bibAuthorField e ++ ". “" ++ e.title ++ ",” " ++
        jsOr e.journal e.booktitle ++ " " ++ e.volume ++
        (if e.number ≠ "" then "(" ++ e.number ++ ")" else "") ++
        (if e.pages ≠ "" then ", " ++ e.pages else "") ++ ", " ++ jsOr e.year "n.d." ++ "." ++
        (if e.doi ≠ "" then " https://doi.org/" ++ e.doi else "") := rfl

theorem fbe_numeric (e : BibEntry) (i : Nat) :
    formatBibliographyEntry e "numeric" i = formatBibliographyEntry e "ieee" i := rfl

theorem fbe_vancouver (e : BibEntry) (i : Nat) :
    formatBibliographyEntry e "vancouver" i =
      natToString i ++ "." ++ " " ++ bibAuthorField e ++ ". " ++ e.title ++ ". " ++
        jsOr e.journal e.booktitle ++ " " ++ jsOr e.year "n.d." ++
        (if e.volume ≠ "" then ";" ++ e.volume else "") ++
        (if (if e.number ≠ "" then "(" ++ e.number ++ ")" else "") ≠ "" then
          "(" ++ (if e.number ≠ "" then "(" ++ e.number ++ ")" else "") ++ ")" else "") ++
        (if (if e.pages ≠ "" then ", " ++ e.pages else "") ≠ "" then
          ":" ++ jsStripLeadCommaSpace
            (jsReplaceOnce (if e.pages ≠ "" then ", " ++ e.pages else "") ", " "-")
          else "") ++ "." := rfl

theorem fbe_acs (e : BibEntry) (i : Nat) :
    formatBibliographyEntry e "acs" i =
      bibAuthorField e ++ ". " ++ e.title ++ ". " ++ jsOr e.journal e.booktitle ++ " " ++
        jsOr e.year "n.d." ++ (if e.volume ≠ "" then ", " ++ e.volume else "") ++
        (if (if e.number ≠ "" then "(" ++ e.number ++ ")" else "") ≠ "" then
          " " ++ (if e.number ≠ "" then "(" ++ e.number ++ ")" else "") else "") ++
        (if e.pages ≠ "" then ", " ++ e.pages else "") ++ "." := rfl

theorem fbe_harvard (e : BibEntry) (i : Nat) :
    formatBibliographyEntry e "harvard" i =
      bibAuthorField e ++ ", " ++ jsOr e.year "n.d." ++ ". " ++ e.title ++ ". " ++
        jsOr e.journal e.booktitle ++ (if e.volume ≠ "" then ", " ++ e.volume else "") ++
        (if (if e.number ≠ "" then "(" ++ e.number ++ ")" else "") ≠ "" then
          " " ++ (if e.number ≠ "" then "(" ++ e.number ++ ")" else "") else "") ++
        (if e.pages ≠ "" then ", " ++ e.pages else "") ++ "." := rfl

theorem fbe_apa (e : BibEntry) (i : Nat) :
    formatBibliographyEntry e "apa" i =
      bibAuthorField e ++ " (" ++ jsOr e.year "n.d." ++ "). " ++ e.title ++ ". " ++
        jsOr e.journal e.booktitle ++ (if e.volume ≠ "" then ", " ++ e.volume else "") ++
        (if (if e.number ≠ "" then "(" ++ e.number ++ ")" else "") ≠ "" then
          " " ++ (if e.number ≠ "" then "(" ++ e.number ++ ")" else "") else "") ++
        (if e.pages ≠ "" then ", " ++ e.pages else "") ++ "." ++
        (if e.doi ≠ "" then " https://doi.org/" ++ e.doi else "") := rfl

theorem fbe_mla (e : BibEntry) (i : Nat) :
    formatBibliographyEntry e "mla" i = formatBibliographyEntry e "apa" i := rfl

/-- C6 (counterexample): for the `acs` style — a member of the numeric class —
the bibliography line begins with the author field, not with `"[3]"` nor
with `"3."`, refuting the claim that every numeric-class style gets an index
prefix. -/
theorem c6_bib_prefix_counterexample :
    jsStartsWith (formatBibliographyEntry eSmith "acs" 3) "[3]" = false ∧
    jsStartsWith (formatBibliographyEntry eSmith "acs" 3) "3." = false ∧
    jsStartsWith (formatBibliographyEntry eSmith "acs" 3) "Smith" = true := by
  refine ⟨by decide, by decide, by decide⟩

/-- C6 (amended): `ieee` and `numeric` bibliography lines begin with
`"[index]"` and `vancouver` lines begin with `"index."`, while `acs` — despite
being in the numeric class for in-text labels — and the author-year styles
`apa`, `mla`, `harvard` begin with the author/editor/`"Anon"` field and carry
no index prefix. -/
theorem c6_bib_prefix_amended (e : BibEntry) (i : Nat) :
    jsStartsWith (formatBibliographyEntry e "ieee" i) ("[" ++ natToString i ++ "]") = true ∧
    jsStartsWith (formatBibliographyEntry e "numeric" i) ("[" ++ natToString i ++ "]") = true ∧
    jsStartsWith (formatBibliographyEntry e "vancouver" i) (natToString i ++ ".") = true ∧
    jsStartsWith (formatBibliographyEntry e "acs" i) (bibAuthorField e) = true ∧
    jsStartsWith (formatBibliographyEntry e "apa" i) (bibAuthorField e) = true ∧
    jsStartsWith (formatBibliographyEntry e "mla" i) (bibAuthorField e) = true ∧
    jsStartsWith (formatBibliographyEntry e "harvard" i) (bibAuthorField e) = true := by
  refine ⟨?_, ?_, ?_, ?_, ?_, ?_, ?_⟩
  · rw [fbe_ieee]
    iterate 14 apply jsStartsWith_append_right
    exact jsStartsWith_self _
  · rw [fbe_numeric, fbe_ieee]
    iterate 14 apply jsStartsWith_append_right
    exact jsStartsWith_self _
  · rw [fbe_vancouver]
    iterate 12 apply jsStartsWith_append_right
    exact jsStartsWith_self _
  · rw [fbe_acs]
    iterate 10 apply jsStartsWith_append_right
    exact jsStartsWith_self _
  · rw [fbe_apa]
    iterate 11 apply jsStartsWith_append_right
    exact jsStartsWith_self _
  · rw [fbe_mla, fbe_apa]
    iterate 11 apply jsStartsWith_append_right
    exact jsStartsWith_self _
  · rw [fbe_harvard]
    iterate 10 apply jsStartsWith_append_right
    exact jsStartsWith_self _

theorem c6_bib_prefix_amended_witness :
    jsStartsWith (formatBibliographyEntry eSmith "ieee" 3) ("[" ++ natToString 3 ++ "]") = true ∧
    jsStartsWith (formatBibliographyEntry eSmith "apa" 3) (bibAuthorField eSmith) = true :=
  ⟨(c6_bib_prefix_amended eSmith 3).1, (c6_bib_prefix_amended eSmith 3).2.2.2.2.1⟩

/-! ## `updateBibliography` (cite.ts): dedup and per-class ordering -/

/-- The dedup pass of `updateBibliography`:
`entries.filter(e => !seen.has(e.id) && (seen.add(e.id), true))`. -/
def dedupByIdAux (seen : List String) : List BibEntry → List BibEntry
  | [] => []
  | e :: es => if e.id ∈ seen then dedupByIdAux seen es else e :: dedupByIdAux (e.id :: seen) es

/-- Code-point-wise lexicographic string order, the shallow model of the
comparator `(a, b) => (a.fields.author || "").localeCompare(b.fields.author || "")`. -/
def charListLe : List Char → List Char → Bool
  | [], _ => true
  | _ :: _, [] => false
  | a :: as, b :: bs =>
    if a.toNat < b.toNat then true
    else if b.toNat < a.toNat then false
    else charListLe as bs

/-- The author sort key comparison used by `updateBibliography`. -/
def authorKeyLe (a b : BibEntry) : Bool := charListLe a.author.data b.author.data

/-- The style test of `updateBibliography`:
`["apa", "harvard", "mla"].includes((style || "apa").toLowerCase())`. -/
def bibSortsAlphabetically (style : String) : Bool :=
  ["apa", "harvard", "mla"].contains (jsToLower (jsOr style "apa"))

/-- The entry order `updateBibliography` renders: dedup by id, then sort by
author for the author-year styles, else keep the given (citation) order. -/
def bibOrdered (entries : List BibEntry) (style : String) : List BibEntry :=
  let list := dedupByIdAux [] entries
  if bibSortsAlphabetically style then sortBy authorKeyLe list else list

/-- The lines `updateBibliography` writes into the bibliography content
control (`list.map((e, i) => formatBibliographyEntry(e, style, i + 1))`),
joined with `"\n"` by the caller. -/
def updateBibliographyLines (entries : List BibEntry) (style : String) : List String :=
  (bibOrdered entries style).mapIdx (fun i e => formatBibliographyEntry e style (i + 1))

theorem charListLe_total : ∀ a b : List Char, charListLe a b = true ∨ charListLe b a = true := by
  intro a
  induction a with
  | nil => intro b; left; rfl
  | cons x xs ih =>
    intro b
    cases b with
    | nil => right; rfl
    | cons y ys =>
      rw [charListLe, charListLe]
      rcases Nat.lt_trichotomy x.toNat y.toNat with h | h | h
      · left
        rw [if_pos h]
      · rw [if_neg (by omega), if_neg (by omega), if_neg (by omega), if_neg (by omega)]
        exact ih ys
      · right
        rw [if_pos h]

theorem charListLe_trans : ∀ a b c : List Char,
    charListLe a b = true → charListLe b c = true → charListLe a c = true := by
  intro a
  induction a with
  | nil => intro b c _ _; rfl
  | cons x xs ih =>
    intro b c hab hbc
    cases b with
    | nil => rw [charListLe] at hab; exact absurd hab (by simp)
    | cons y ys =>
      cases c with
      | nil => rw [charListLe] at hbc; exact absurd hbc (by simp)
      | cons z zs =>
        rw [charListLe] at hab hbc ⊢
        by_cases h1 : x.toNat < y.toNat <;> by_cases h2 : y.toNat < z.toNat
        · rw [if_pos (by omega)]
        · rw [if_pos h1] at hab
          rw [if_neg h2] at hbc
          by_cases h3 : z.toNat < y.toNat
          · rw [if_pos h3] at hbc
            exact absurd hbc (by simp)
          · rw [if_pos (by omega)]
        · rw [if_neg h1] at hab
          by_cases h4 : y.toNat < x.toNat
          · rw [if_pos h4] at hab
            exact absurd hab (by simp)
          · rw [if_pos (by omega)]
        · rw [if_neg h1] at hab
          rw [if_neg h2] at hbc
          by_cases h4 : y.toNat < x.toNat
          · rw [if_pos h4] at hab
            exact absurd hab (by simp)
          · by_cases h5 : z.toNat < y.toNat
            · rw [if_pos h5] at hbc
              exact absurd hbc (by simp)
            · rw [if_neg h4] at hab
              rw [if_neg h5] at hbc
              rw [if_neg (by omega), if_neg (by omega)]
              exact ih ys zs hab hbc

/-- C7: for the author-year styles (apa, mla, harvard — case-insensitively)
the rendered bibliography order is a permutation of the deduplicated cited
entries sorted non-decreasingly by author key, regardless of citation order;
for every other style (the numeric class ieee, numeric, vancouver, acs) the
deduplicated citation order is kept unchanged, regardless of authors. -/
theorem c7_bibliography_sort_rule :
    (∀ (entries : List BibEntry) (style : String),
        bibSortsAlphabetically style = true →
          (bibOrdered entries style).Perm (dedupByIdAux [] entries) ∧
          (bibOrdered entries style).Pairwise (fun a b => authorKeyLe a b = true) ∧
          updateBibliographyLines entries style =
            (bibOrdered entries style).mapIdx (fun i e => formatBibliographyEntry e style (i + 1))) ∧
    (∀ (entries : List BibEntry) (style : String),
        bibSortsAlphabetically style = false →
          bibOrdered entries style = dedupByIdAux [] entries) ∧
    (bibSortsAlphabetically "apa" = true ∧ bibSortsAlphabetically "mla" = true ∧
      bibSortsAlphabetically "harvard" = true ∧ bibSortsAlphabetically "MLA" = true ∧
      bibSortsAlphabetically "ieee" = false ∧ bibSortsAlphabetically "numeric" = false ∧
      bibSortsAlphabetically "vancouver" = false ∧ bibSortsAlphabetically "acs" = false) := by
  refine ⟨?_, ?_, by decide⟩
  · intro entries style h
    refine ⟨?_, ?_, rfl⟩
    · rw [bibOrdered]
      simp only [h, if_pos]
      exact sortBy_perm _ _
    · rw [bibOrdered]
      simp only [h, if_pos]
      exact sortBy_pairwise authorKeyLe
        (fun a b => charListLe_total a.author.data b.author.data)
        (fun a b c => charListLe_trans a.author.data b.author.data c.author.data) _
  · intro entries style h
    rw [bibOrdered]
    simp [h]

theorem c7_bibliography_sort_rule_witness :
    ((bibOrdered [eSmith, eAnon] "apa").Perm (dedupByIdAux [] [eSmith, eAnon]) ∧
      (bibOrdered [eSmith, eAnon] "apa").Pairwise (fun a b => authorKeyLe a b = true) ∧
      updateBibliographyLines [eSmith, eAnon] "apa" =
        (bibOrdered [eSmith, eAnon] "apa").mapIdx
          (fun i e => formatBibliographyEntry e "apa" (i + 1))) ∧
    bibOrdered [eSmith, eAnon] "ieee" = dedupByIdAux [] [eSmith, eAnon] :=
  ⟨c7_bibliography_sort_rule.1 [eSmith, eAnon] "apa" (by decide),
   c7_bibliography_sort_rule.2.1 [eSmith, eAnon] "ieee" (by decide)⟩

/-! ## Per-document order store (`storage_doc.ts`) -/

/-- `setCitedOrder(ids)`: persists only the first occurrence of each id
("store unique in order (safety)": the `seen`-set filter). -/
def setCitedOrderStore (ids : List String) : List String := firstUniqAux [] ids

/-- `markCited(id)`: append the id only when it is not already present. -/
def markCitedStore (id : String) (order : List String) : List String :=
  if id ∈ order then order else order ++ [id]

/-- A call into the order store's mutating API. -/
inductive OrderOp
  | setOrder (ids : List String)
  | mark (id : String)

/-- Apply one store call to the persisted order. -/
def applyOrderOp (st : List String) : OrderOp → List String
  | .setOrder ids => setCitedOrderStore ids
  | .mark id => markCitedStore id st

/-- The persisted order after a call sequence, starting from the store's
initial empty order. -/
def applyOrderOps (ops : List OrderOp) : List String := ops.foldl applyOrderOp []

theorem markCitedStore_nodup (id : String) (st : List String) (h : st.Nodup) :
    (markCitedStore id st).Nodup := by
  rw [markCitedStore]
  by_cases hm : id ∈ st
  · rw [if_pos hm]; exact h
  · rw [if_neg hm]
    rw [List.nodup_append]
    exact ⟨h, by simp, by simpa using fun hc => absurd hc hm⟩

theorem applyOrderOps_foldl_nodup (ops : List OrderOp) :
    ∀ st : List String, st.Nodup → (ops.foldl applyOrderOp st).Nodup := by
  induction ops with
  | nil => intro st h; exact h
  | cons op ops ih =>
    intro st h
    rw [List.foldl_cons]
    refine ih _ ?_
    cases op with
    | setOrder ids => exact nodup_firstUniqAux ids []
    | mark id => exact markCitedStore_nodup id st h

/-- C10: the order store enforces the CitedOrder uniqueness invariant at its
boundary — `setCitedOrder` persists only first occurrences (in input order),
`markCited` appends exactly when the id is absent, and after any sequence of
store calls the persisted order is duplicate-free. -/
theorem c10_order_store_unique :
    (∀ ids : List String,
        setCitedOrderStore ids = firstOccSpec ids ∧ (setCitedOrderStore ids).Nodup) ∧
    (∀ (id : String) (st : List String), id ∈ st → markCitedStore id st = st) ∧
    (∀ (id : String) (st : List String), id ∉ st → markCitedStore id st = st ++ [id]) ∧
    (∀ ops : List OrderOp, (applyOrderOps ops).Nodup) := by
  refine ⟨?_, ?_, ?_, ?_⟩
  · intro ids
    constructor
    · rw [setCitedOrderStore, firstUniqAux_eq_spec]
      congr 1
      simp
    · exact nodup_firstUniqAux ids []
  · intro id st h
    rw [markCitedStore, if_pos h]
  · intro id st h
    rw [markCitedStore, if_neg h]
  · intro ops
    exact applyOrderOps_foldl_nodup ops [] (by simp)

theorem c10_order_store_unique_witness :
    setCitedOrderStore ["a", "b", "a", "c"] = firstOccSpec ["a", "b", "a", "c"] ∧
    markCitedStore "a" ["a", "b"] = ["a", "b"] ∧
    markCitedStore "c" ["a", "b"] = ["a", "b"] ++ ["c"] ∧
    (applyOrderOps [.setOrder ["x", "x", "y"], .mark "x", .mark "z"]).Nodup :=
  ⟨(c10_order_store_unique.1 ["a", "b", "a", "c"]).1,
   c10_order_store_unique.2.1 "a" ["a", "b"] (by decide),
   c10_order_store_unique.2.2.1 "c" ["a", "b"] (by decide),
   c10_order_store_unique.2.2.2 [.setOrder ["x", "x", "y"], .mark "x", .mark "z"]⟩

/-! ## Synchronization pipeline (taskpane.ts `refreshNumbersAndBibliography`
followed by `rerenderGroupCitations`)

The document is modelled as its list of content controls in reading order;
recovering that order from the pairwise position oracle is what
`c1_scan_ordering_correct` verifies, so scanning here walks the list in
order.  A content control carries title, tag and display text; the library
is a partial map from identifier to entry. -/

structure DocCC where
  title : String
  tag : String
  text : String
deriving DecidableEq

/-- Tag head of a single citation control (`wordref-cite:<id>`). -/
def citeTag : String := "wordref-cite:"

/-- Tag head of a group citation control (`wordref-group:<id,...>`). -/
def groupTag : String := "wordref-group:"

/-- Title of single citation controls. -/
def singleCCTitle : String := "WordRef Citation"

/-- Title of group citation controls (`GROUP_TITLE`). -/
def groupCCTitle : String := "WordRef Citation (Group)"

/-- The ids one content control contributes to the scan
(`getAllCitationIdsInDoc`): a single contributes its trimmed id when
nonempty, a group contributes its comma-split trimmed nonempty ids, anything
else contributes nothing. -/
def scanItemIds (cc : DocCC) : List String :=
  if cc.title = singleCCTitle ∧ jsStartsWith cc.tag citeTag = true then
    let id := jsTrim (String.mk (cc.tag.data.drop citeTag.data.length))
    if id = "" then [] else [id]
  else if cc.title = groupCCTitle ∧ jsStartsWith cc.tag groupTag = true then
    ((jsSplit "," (String.mk (cc.tag.data.drop groupTag.data.length))).map jsTrim).filter
      (fun s => decide (s ≠ ""))
  else []

/-- `getAllCitationIdsInDoc`: flatten the per-control id lists in document
order (the ordering pass itself is `scanSort`, verified in C1). -/
def getAllCitationIdsInDoc (doc : List DocCC) : List String :=
  (doc.map scanItemIds).flatten

/-- `(cc.tag || "").split(":")[1]` from `rerenderAllCitations`. -/
def idOfCiteTag (tag : String) : String := (jsSplit ":" tag).getD 1 ""

/-- `Math.max(0, order.indexOf(id)) + 1`. -/
def rerenderIdx (ord : List String) (id : String) : Nat :=
  if id ∈ ord then List.indexOf id ord + 1 else 1

/-- `rerenderAllCitations` applied to one content control: controls whose tag
starts with `wordref-cite:` and whose id resolves in the library get their
display text rewritten; unresolved ids are skipped (`if (!e) continue`). -/
def rerenderSingleCC (style : String) (ord : List String) (lib : String → Option BibEntry)
    (cc : DocCC) : DocCC :=
  if jsStartsWith cc.tag citeTag = true then
    match lib (idOfCiteTag cc.tag) with
    | none => cc
    | some e => { cc with text := formatInText e style (rerenderIdx ord (idOfCiteTag cc.tag)) }
  else cc

/-- JS `xs.join(sep)` on strings. -/
def joinStrings (sep : String) : List String → String
  | [] => ""
  | [x] => x
  | x :: xs => x ++ sep ++ joinStrings sep xs

/-- One token of `compressNumericList` (note the en dash of the source). -/
def cnlTok (s p : Nat) : String :=
  if s = p then natToString s else natToString s ++ "–" ++ natToString p

/-- The run-folding loop of `compressNumericList`. -/
def cnlLoop : Nat → Nat → List Nat → List String
  | s, p, [] => [cnlTok s p]
  | s, p, n :: rest => if n = p + 1 then cnlLoop s n rest else cnlTok s p :: cnlLoop n n rest

/-- `compressNumericList(nums)` from taskpane.ts: fold consecutive runs of an
already-sorted list, join with `","`; empty input yields `""`. -/
def compressNumericList (nums : List Nat) : String :=
  match nums with
  | [] => ""
  | n0 :: rest => joinStrings "," (cnlLoop n0 n0 rest)

/-- Strip of `/^[\s\[(]+/`. -/
def stripLead (c : Char) : Bool := c.isWhitespace || c == '[' || c == '('

/-- Strip of `/[\s\])]+$/`. -/
def stripTail (c : Char) : Bool := c.isWhitespace || c == ']' || c == ')'

/-- `t.replace(/^[\s\[(]+|[\s\])]+$/g, "")`: remove the outer bracket or
parenthesis wrapping of an in-text label. -/
def stripCiteWrap (s : String) : String :=
  String.mk (((s.data.dropWhile stripLead).reverse.dropWhile stripTail).reverse)

/-- `formatGroupFromIds(ids, style)` from taskpane.ts, with the persisted
order and library passed explicitly. -/
def formatGroupFromIds (ids : List String) (style : String) (ord : List String)
    (lib : String → Option BibEntry) : String :=
  let uniq := firstUniqAux [] ids
  let numericIdx := uniq.filterMap fun id =>
    match lib id with
    | none => none
    | some _ => if id ∈ ord then some (List.indexOf id ord + 1) else none
  let alphaBits := if isNumericStyle style then ([] : List String) else
    uniq.filterMap fun id =>
      match lib id with
      | none => none
      | some e => some (stripCiteWrap (formatInText e style (rerenderIdx ord id)))
  let sortedIdx := sortBy (fun a b => decide (a ≤ b)) numericIdx
  if isNumericStyle style then
    if sortedIdx ≠ [] then "[" ++ compressNumericList sortedIdx ++ "]" else "[]"
  else
    if alphaBits ≠ [] then "(" ++ joinStrings "; " alphaBits ++ ")" else "()"

/-- `rerenderGroupCitations` applied to one content control: group-titled
controls with a `wordref-group:` tag get their combined text recomputed. -/
def rerenderGroupCC (style : String) (ord : List String) (lib : String → Option BibEntry)
    (cc : DocCC) : DocCC :=
  if cc.title = groupCCTitle ∧ jsStartsWith cc.tag groupTag = true then
    let ids := ((jsSplit "," (String.mk (cc.tag.data.drop groupTag.data.length))).map jsTrim).filter
      (fun s => decide (s ≠ ""))
    { cc with text := formatGroupFromIds ids style ord lib }
  else cc

/-- The engine state a refresh touches: the document's content controls, the
persisted CitedOrder and the bibliography content control's text. -/
structure EngineState where
  doc : List DocCC
  order : List String
  bib : String
deriving DecidableEq

/-- The full refresh (`refreshNumbersAndBibliography` then
`rerenderGroupCitations`): scan ids in document order, canonicalize, persist
the order, re-render all single markers, rebuild the bibliography from the
resolvable cited entries, then re-render all group markers against the
just-persisted order. -/
def refreshAll (style : String) (lib : String → Option BibEntry) (st : EngineState) :
    EngineState :=
  let idsInDoc := getAllCitationIdsInDoc st.doc
  let uniqueOrder := uniqueInOrder idsInDoc
  let savedOrder := setCitedOrderStore uniqueOrder
  let doc1 := st.doc.map (rerenderSingleCC style uniqueOrder lib)
  let cited := uniqueOrder.filterMap lib
  let bibText := joinStrings "\n" (updateBibliographyLines cited style)
  let doc2 := doc1.map (rerenderGroupCC style savedOrder lib)
  { doc := doc2, order := savedOrder, bib := bibText }

/-! The two re-render passes only ever overwrite a control's display text,
with a value computed from its title/tag (never from its current text).
This "writer" normal form drives the idempotence proof. -/

/-- Overwrite the text of a control when a value is supplied. -/
def applyWriter (w : Option String) (cc : DocCC) : DocCC :=
  match w with
  | some v => { cc with text := v }
  | none => cc

/-- The text `rerenderAllCitations` writes for a given tag, if any. -/
def singleWriter (style : String) (ord : List String) (lib : String → Option BibEntry)
    (tag : String) : Option String :=
  if jsStartsWith tag citeTag = true then
    match lib (idOfCiteTag tag) with
    | none => none
    | some e => some (formatInText e style (rerenderIdx ord (idOfCiteTag tag)))
  else none

/-- The text `rerenderGroupCitations` writes for a given title/tag, if any. -/
def groupWriter (style : String) (ord : List String) (lib : String → Option BibEntry)
    (title tag : String) : Option String :=
  if title = groupCCTitle ∧ jsStartsWith tag groupTag = true then
    some (formatGroupFromIds
      (((jsSplit "," (String.mk (tag.data.drop groupTag.data.length))).map jsTrim).filter
        (fun s => decide (s ≠ ""))) style ord lib)
  else none

theorem rerenderSingleCC_writer (style : String) (o : List String)
    (lib : String → Option BibEntry) (cc : DocCC) :
    rerenderSingleCC style o lib cc = applyWriter (singleWriter style o lib cc.tag) cc := by
  rw [rerenderSingleCC, singleWriter]
  by_cases h : jsStartsWith cc.tag citeTag = true
  · rw [if_pos h, if_pos h]
    cases lib (idOfCiteTag cc.tag) <;> rfl
  · rw [if_neg h, if_neg h]
    rfl

theorem rerenderGroupCC_writer (style : String) (o : List String)
    (lib : String → Option BibEntry) (cc : DocCC) :
    rerenderGroupCC style o lib cc =
      applyWriter (groupWriter style o lib cc.title cc.tag) cc := by
  rw [rerenderGroupCC, groupWriter]
  by_cases h : (cc.title = groupCCTitle ∧ jsStartsWith cc.tag groupTag = true)
  · rw [if_pos h, if_pos h]
    rfl
  · rw [if_neg h, if_neg h]
    rfl

theorem applyWriter_title (w : Option String) (cc : DocCC) :
    (applyWriter w cc).title = cc.title := by
  cases w <;> rfl

theorem applyWriter_tag (w : Option String) (cc : DocCC) :
    (applyWriter w cc).tag = cc.tag := by
  cases w <;> rfl

theorem applyWriter_comp (w w' : Option String) (cc : DocCC) :
    applyWriter w (applyWriter w' cc) =
      applyWriter (match w with | some v => some v | none => w') cc := by
  cases w <;> cases w' <;> cases cc <;> rfl

theorem grPair_writer (style : String) (o1 o2 : List String)
    (lib : String → Option BibEntry) (cc : DocCC) :
    rerenderGroupCC style o2 lib (rerenderSingleCC style o1 lib cc) =
      applyWriter
        (match groupWriter style o2 lib cc.title cc.tag with
          | some v => some v
          | none => singleWriter style o1 lib cc.tag) cc := by
  rw [rerenderSingleCC_writer, rerenderGroupCC_writer, applyWriter_title, applyWriter_tag,
      applyWriter_comp]

theorem rerender_pair_idem (style : String) (o1 o2 : List String)
    (lib : String → Option BibEntry) (cc : DocCC) :
    rerenderGroupCC style o2 lib (rerenderSingleCC style o1 lib
      (rerenderGroupCC style o2 lib (rerenderSingleCC style o1 lib cc))) =
      rerenderGroupCC style o2 lib (rerenderSingleCC style o1 lib cc) := by
  rw [grPair_writer style o1 o2 lib (rerenderGroupCC style o2 lib
        (rerenderSingleCC style o1 lib cc)),
      grPair_writer style o1 o2 lib cc, applyWriter_title, applyWriter_tag, applyWriter_comp]
  cases groupWriter style o2 lib cc.title cc.tag <;>
    cases singleWriter style o1 lib cc.tag <;> rfl

theorem scanItemIds_writer (w : Option String) (cc : DocCC) :
    scanItemIds (applyWriter w cc) = scanItemIds cc := by
  cases w with
  | none => rfl
  | some v => cases cc; rfl

theorem getAll_map_pair (style : String) (o1 o2 : List String)
    (lib : String → Option BibEntry) (doc : List DocCC) :
    getAllCitationIdsInDoc
        ((doc.map (rerenderSingleCC style o1 lib)).map (rerenderGroupCC style o2 lib)) =
      getAllCitationIdsInDoc doc := by
  rw [getAllCitationIdsInDoc, getAllCitationIdsInDoc, List.map_map, List.map_map]
  congr 1
  apply List.map_congr_left
  intro cc _
  simp only [Function.comp]
  rw [grPair_writer, scanItemIds_writer]

theorem map_pair_idem (style : String) (o1 o2 : List String)
    (lib : String → Option BibEntry) (doc : List DocCC) :
    ((((doc.map (rerenderSingleCC style o1 lib)).map (rerenderGroupCC style o2 lib)).map
        (rerenderSingleCC style o1 lib)).map (rerenderGroupCC style o2 lib)) =
      (doc.map (rerenderSingleCC style o1 lib)).map (rerenderGroupCC style o2 lib) := by
  rw [List.map_map, List.map_map, List.map_map, List.map_map]
  apply List.map_congr_left
  intro cc _
  simp only [Function.comp]
  exact rerender_pair_idem style o1 o2 lib cc

/-- C5: the full refresh pipeline is idempotent — with no intervening
document edit, running `refreshAll` twice yields exactly the same document
texts, persisted order and bibliography content as running it once. -/
theorem c5_refreshAll_idempotent (style : String) (lib : String → Option BibEntry)
    (st : EngineState) :
    refreshAll style lib (refreshAll style lib st) = refreshAll style lib st := by
  simp only [refreshAll]
  rw [getAll_map_pair]
  simp only [EngineState.mk.injEq]
  refine ⟨?_, trivial, trivial⟩
  exact map_pair_idem style _ _ lib st.doc

/-! ## C9: unresolved identifiers are tolerated, not fatal -/

theorem take_of_isPrefixOf : ∀ (l m : List Char), l.isPrefixOf m = true → m.take l.length = l := by
  intro l
  induction l with
  | nil => intro m _; rfl
  | cons c cs ih =>
    intro m h
    cases m with
    | nil => simp [List.isPrefixOf] at h
    | cons d ds =>
      simp only [List.isPrefixOf] at h
      rcases (Bool.and_eq_true _ _).mp h with ⟨h1, h2⟩
      have hcd : c = d := by simpa using h1
      subst hcd
      rw [List.length_cons, List.take_succ_cons, ih ds h2]

theorem cite_group_disjoint (tag : String) :
    jsStartsWith tag citeTag = true → jsStartsWith tag groupTag = true → False := by
  intro h1 h2
  rw [jsStartsWith] at h1 h2
  have t1 := take_of_isPrefixOf _ _ h1
  have t2 := take_of_isPrefixOf _ _ h2
  have hmin : (tag.data.take groupTag.data.length).take citeTag.data.length =
      tag.data.take citeTag.data.length := by
    rw [List.take_take]
    congr 1
  rw [t2, t1] at hmin
  exact absurd hmin (by decide)

theorem rerenderGroupCC_cite_skip (style : String) (o : List String)
    (lib : String → Option BibEntry) (cc : DocCC)
    (h : jsStartsWith cc.tag citeTag = true) :
    rerenderGroupCC style o lib cc = cc := by
  rw [rerenderGroupCC, if_neg]
  rintro ⟨-, hg⟩
  exact cite_group_disjoint cc.tag h hg

theorem getD_map_of_lt {α β : Type} (f : α → β) (l : List α) (i : Nat) (d : α) (db : β)
    (h : i < l.length) : (l.map f).getD i db = f (l.getD i d) := by
  rw [List.getD_eq_getElem?_getD, List.getD_eq_getElem?_getD, List.getElem?_map,
      List.getElem?_eq_getElem h]
  rfl

theorem filterMap_drop_none {α β : Type} [DecidableEq α] (f : α → Option β) (a : α)
    (hf : f a = none) : ∀ l : List α,
    l.filterMap f = (l.filter (fun x => decide (x ≠ a))).filterMap f := by
  intro l
  induction l with
  | nil => rfl
  | cons x xs ih =>
    by_cases hx : x = a
    · subst hx
      rw [List.filterMap_cons, hf, List.filter_cons]
      have hd : (decide (x ≠ x)) = false := by simp
      rw [hd]
      simp only [Bool.false_eq_true, if_false]
      exact ih
    · rw [List.filter_cons]
      have hd : (decide (x ≠ a)) = true := by simp [hx]
      rw [hd]
      simp only [if_pos]
      rw [List.filterMap_cons, List.filterMap_cons]
      cases hfx : f x <;> simp [ih]

/-- C9: a marker whose identifier no longer resolves in the library does not
break the refresh: the pipeline (a total function here — the source skips
via `if (!e) continue` / `filter(Boolean)`) leaves that marker's control
completely untouched, builds the bibliography exactly as if the dangling
identifier were absent from the cited order, and still re-renders every
marker whose identifier does resolve. -/
theorem c9_dangling_reference_tolerated (style : String) (lib : String → Option BibEntry)
    (st : EngineState) (i : Nat) (hi : i < st.doc.length)
    (hcite : jsStartsWith (st.doc.getD i ⟨"", "", ""⟩).tag citeTag = true)
    (hnone : lib (idOfCiteTag (st.doc.getD i ⟨"", "", ""⟩).tag) = none) :
    (refreshAll style lib st).doc.getD i ⟨"", "", ""⟩ = st.doc.getD i ⟨"", "", ""⟩ ∧
    (refreshAll style lib st).bib =
      joinStrings "\n" (updateBibliographyLines
        (((uniqueInOrder (getAllCitationIdsInDoc st.doc)).filter
            (fun x => decide (x ≠ idOfCiteTag (st.doc.getD i ⟨"", "", ""⟩).tag))).filterMap lib)
        style) ∧
    (∀ j : Nat, j < st.doc.length →
      ∀ e : BibEntry,
        jsStartsWith (st.doc.getD j ⟨"", "", ""⟩).tag citeTag = true →
        lib (idOfCiteTag (st.doc.getD j ⟨"", "", ""⟩).tag) = some e →
        (refreshAll style lib st).doc.getD j ⟨"", "", ""⟩ =
          { st.doc.getD j ⟨"", "", ""⟩ with
            text := formatInText e style
              (rerenderIdx (uniqueInOrder (getAllCitationIdsInDoc st.doc))
                (idOfCiteTag (st.doc.getD j ⟨"", "", ""⟩).tag)) }) := by
  refine ⟨?_, ?_, ?_⟩
  · simp only [refreshAll]
    rw [getD_map_of_lt (rerenderGroupCC style _ lib) _ i ⟨"", "", ""⟩ ⟨"", "", ""⟩ (by
          simpa using hi),
        getD_map_of_lt (rerenderSingleCC style _ lib) _ i ⟨"", "", ""⟩ ⟨"", "", ""⟩ hi]
    rw [rerenderSingleCC, if_pos hcite, hnone]
    exact rerenderGroupCC_cite_skip style _ lib _ hcite
  · simp only [refreshAll]
    congr 1
    congr 1
    exact filterMap_drop_none lib _ hnone _
  · intro j hj e hcj hsome
    simp only [refreshAll]
    rw [getD_map_of_lt (rerenderGroupCC style _ lib) _ j ⟨"", "", ""⟩ ⟨"", "", ""⟩ (by
          simpa using hj),
        getD_map_of_lt (rerenderSingleCC style _ lib) _ j ⟨"", "", ""⟩ ⟨"", "", ""⟩ hj]
    rw [rerenderSingleCC, if_pos hcj, hsome]
    refine rerenderGroupCC_cite_skip style _ lib _ ?_
    simpa using hcj

/-- Example library: only the id `kept` resolves. -/
def exLib : String → Option BibEntry := fun s => if s = "kept" then some eSmith else none

/-- Example document: one dangling single marker and one resolvable one. -/
def exDoc : List DocCC :=
  [⟨"WordRef Citation", "wordref-cite:gone", "OLD"⟩,
   ⟨"WordRef Citation", "wordref-cite:kept", "X"⟩]

/-- Example engine state. -/
def exSt : EngineState := ⟨exDoc, [], ""⟩

theorem c9_dangling_reference_tolerated_witness :
    (refreshAll "apa" exLib exSt).doc.getD 0 ⟨"", "", ""⟩ = exSt.doc.getD 0 ⟨"", "", ""⟩ ∧
    (refreshAll "apa" exLib exSt).doc.getD 1 ⟨"", "", ""⟩ =
      { exSt.doc.getD 1 ⟨"", "", ""⟩ with
        text := formatInText eSmith "apa"
          (rerenderIdx (uniqueInOrder (getAllCitationIdsInDoc exSt.doc))
            (idOfCiteTag (exSt.doc.getD 1 ⟨"", "", ""⟩).tag)) } := by
  have h := c9_dangling_reference_tolerated "apa" exLib exSt 0 (by decide) (by decide) (by decide)
  exact ⟨h.1, h.2.2 1 (by decide) eSmith (by decide) (by decide)⟩
